import Mathlib

/-!
# Shallow embedding of `src/Main.py` (Shannon–Fano compressor)

Symbols are modelled as `Nat` code points (`ord`/`chr`); Python bit strings
(strings over the characters 0 and 1) as `List Bool` with `false` for the
character 0 and `true` for 1; Python `bytes` as `List Nat` whose elements are
below 256; fallible Python code (uncaught exceptions) as `Option`.

Python loops that are not structurally recursive are embedded with an explicit
fuel argument; every wrapper passes fuel that provably dominates the number of
iterations the Python loop performs, so the fuel-exhaustion branches are
unreachable.
-/

namespace Fano

/-- `int(s, 2)` on a bit string: most-significant-bit-first valuation. -/
def bitsToNat (l : List Bool) : Nat :=
  l.foldl (fun a b => 2 * a + (if b then 1 else 0)) 0

/-- `format(n, '08b')` for `n < 256` (Python `bytes` elements are < 256):
the eight bits of `n`, most significant first. -/
def byteBits (n : Nat) : List Bool :=
  [n.testBit 7, n.testBit 6, n.testBit 5, n.testBit 4,
   n.testBit 3, n.testBit 2, n.testBit 1, n.testBit 0]

/-- The `for i in range(0, len(s), 8)` loop of `bit_string_to_bytes`:
each 8-bit slice `s[i:i+8]` becomes `int(slice, 2)`.  The loop runs
`ceil(len(s)/8)` times; fuel `len(s)` dominates that, so the fuel-0 branch is
never reached from the wrapper below. -/
def chunksGo : Nat → List Bool → List Nat
  | _, [] => []
  | fuel + 1, l => bitsToNat (l.take 8) :: chunksGo fuel (l.drop 8)
  | 0, _ => []

def chunksToBytes (s : List Bool) : List Nat := chunksGo s.length s

/-- `bit_string_to_bytes` (src/Main.py lines 140–147): prepend the padding
count, pad with zero bits to a byte boundary, pack MSB-first. -/
def bit_string_to_bytes (s : List Bool) : List Nat :=
  let padding := (8 - s.length % 8) % 8
  padding :: chunksToBytes (s ++ List.replicate padding false)

/-- `bytes_to_bit_string` (src/Main.py lines 149–154): `b[0]` is the padding
count; the remaining bytes are unpacked MSB-first and the final `padding`
bits dropped (`bit_string[:-padding]`, which empties the string when
`padding` exceeds its length, exactly like `take (length - padding)`).
`b[0]` on an empty `bytes` raises `IndexError`, hence `none`. -/
def bytes_to_bit_string : List Nat → Option (List Bool)
  | [] => none
  | padding :: rest =>
      let bits := (rest.map byteBits).flatten
      some (if padding > 0 then bits.take (bits.length - padding) else bits)

lemma byteBits_length (n : Nat) : (byteBits n).length = 8 := rfl

lemma byteBits_bitsToNat (b1 b2 b3 b4 b5 b6 b7 b8 : Bool) :
    byteBits (bitsToNat [b1, b2, b3, b4, b5, b6, b7, b8]) =
      [b1, b2, b3, b4, b5, b6, b7, b8] := by
  cases b1 <;> cases b2 <;> cases b3 <;> cases b4 <;>
    cases b5 <;> cases b6 <;> cases b7 <;> cases b8 <;> decide

set_option maxRecDepth 100000 in
lemma bitsToNat_byteBits {n : Nat} (h : n < 256) : bitsToNat (byteBits n) = n := by
  revert h; revert n; decide

lemma bitsToNat_foldl_lt (l : List Bool) :
    ∀ a : Nat, l.foldl (fun a b => 2 * a + (if b then 1 else 0)) a
      < (a + 1) * 2 ^ l.length := by
  induction l with
  | nil => intro a; simp
  | cons b l ih =>
      intro a
      have h := ih (2 * a + (if b then 1 else 0))
      calc (b :: l).foldl (fun a b => 2 * a + (if b then 1 else 0)) a
          = l.foldl (fun a b => 2 * a + (if b then 1 else 0))
              (2 * a + (if b then 1 else 0)) := rfl
        _ < (2 * a + (if b then 1 else 0) + 1) * 2 ^ l.length := h
        _ ≤ (a + 1) * 2 ^ (b :: l).length := by
            have hb : (if b then 1 else 0) ≤ 1 := by cases b <;> simp
            have hp : 0 < 2 ^ l.length := Nat.pos_pow_of_pos _ (by norm_num)
            simp only [List.length_cons, pow_succ]
            nlinarith

lemma bitsToNat_lt_pow (l : List Bool) : bitsToNat l < 2 ^ l.length := by
  simpa using bitsToNat_foldl_lt l 0

/-- Splitting off the first eight elements of a list of length at least 8. -/
lemma exists_eight (l : List Bool) (h : 8 ≤ l.length) :
    ∃ b1 b2 b3 b4 b5 b6 b7 b8 rest,
      l = b1 :: b2 :: b3 :: b4 :: b5 :: b6 :: b7 :: b8 :: rest := by
  rcases l with _ | ⟨b1, l⟩; · simp at h
  rcases l with _ | ⟨b2, l⟩; · simp at h
  rcases l with _ | ⟨b3, l⟩; · simp at h
  rcases l with _ | ⟨b4, l⟩; · simp at h
  rcases l with _ | ⟨b5, l⟩; · simp at h
  rcases l with _ | ⟨b6, l⟩; · simp at h
  rcases l with _ | ⟨b7, l⟩; · simp at h
  rcases l with _ | ⟨b8, l⟩; · simp at h
  exact ⟨b1, b2, b3, b4, b5, b6, b7, b8, l, rfl⟩

/-- On byte-aligned input with enough fuel, packing to bytes and unpacking
each byte is the identity. -/
lemma chunksGo_unpack : ∀ fuel : Nat, ∀ s : List Bool,
    s.length ≤ fuel → s.length % 8 = 0 →
    ((chunksGo fuel s).map byteBits).flatten = s := by
  intro fuel
  induction fuel with
  | zero =>
      intro s hle _
      have : s = [] := List.eq_nil_of_length_eq_zero (by omega)
      subst this; rfl
  | succ fuel ih =>
      intro s hle hmod
      rcases s with _ | ⟨a, t⟩
      · rfl
      · have h8 : 8 ≤ (a :: t).length := by
          have := List.length_cons a t
          by_contra hlt
          omega
        obtain ⟨b1, b2, b3, b4, b5, b6, b7, b8, rest, heq⟩ :=
          exists_eight (a :: t) h8
        rw [heq]
        have hlen : (b1 :: b2 :: b3 :: b4 :: b5 :: b6 :: b7 :: b8 :: rest).length
            = rest.length + 8 := by simp
        have hrest_le : rest.length ≤ fuel := by
          rw [heq] at hle; simp at hle; omega
        have hrest_mod : rest.length % 8 = 0 := by
          rw [heq] at hmod; simp at hmod; omega
        simp only [chunksGo, List.take, List.drop, List.map_cons,
          List.flatten_cons, byteBits_bitsToNat, ih rest hrest_le hrest_mod]
        rfl

/-- Core unpack-pack inverse, shared by several claims. -/
lemma unpack_pack (b : List Bool) :
    bytes_to_bit_string (bit_string_to_bytes b) = some b := by
  have hr : b.length % 8 < 8 := Nat.mod_lt _ (by norm_num)
  set p := (8 - b.length % 8) % 8 with hp
  have hmod : (b ++ List.replicate p false).length % 8 = 0 := by
    simp only [List.length_append, List.length_replicate]
    omega
  have hflat : ((chunksToBytes (b ++ List.replicate p false)).map byteBits).flatten
      = b ++ List.replicate p false :=
    chunksGo_unpack _ _ le_rfl hmod
  simp only [bit_string_to_bytes, bytes_to_bit_string, chunksToBytes]
  rw [← hp]
  simp only [chunksToBytes] at hflat
  rw [hflat]
  by_cases hzero : p = 0
  · simp [hzero]
  · have hpos : p > 0 := Nat.pos_of_ne_zero hzero
    simp only [if_pos hpos, List.length_append, List.length_replicate]
    have : b.length + p - p = b.length := by omega
    rw [this, List.take_left]

/-! ## The `Node` class and the Shannon–Fano tree builder -/

/-- Python `Node(freq, char, left, right)`.  The four constructors cover the
four possibilities for which of the two child slots are `None`; `char = none`
marks an internal node, `char = some c` a leaf holding code point `c`. -/
inductive PyNode : Type where
  | mk0 (freq : Nat) (char : Option Nat)
  | mkL (freq : Nat) (char : Option Nat) (left : PyNode)
  | mkR (freq : Nat) (char : Option Nat) (right : PyNode)
  | mk2 (freq : Nat) (char : Option Nat) (left right : PyNode)
  deriving DecidableEq

/-- `node.char`. -/
def PyNode.char : PyNode → Option Nat
  | .mk0 _ c => c
  | .mkL _ c _ => c
  | .mkR _ c _ => c
  | .mk2 _ c _ _ => c

/-- `node.left`. -/
def PyNode.left : PyNode → Option PyNode
  | .mkL _ _ l => some l
  | .mk2 _ _ l _ => some l
  | _ => none

/-- `node.right`. -/
def PyNode.right : PyNode → Option PyNode
  | .mkR _ _ r => some r
  | .mk2 _ _ _ r => some r
  | _ => none

/-- `Node(freq, char, left, right)`: choose the constructor matching which
children are present. -/
def mkNode (freq : Nat) (char : Option Nat) :
    Option PyNode → Option PyNode → PyNode
  | none, none => .mk0 freq char
  | some l, none => .mkL freq char l
  | none, some r => .mkR freq char r
  | some l, some r => .mk2 freq char l r

/-- Number of nodes of a tree; used as loop fuel for the iterative
stack-driven traversals (each Python loop iteration pops one node and each
node enters the stack at most once). -/
def PyNode.size : PyNode → Nat
  | .mk0 _ _ => 1
  | .mkL _ _ l => 1 + l.size
  | .mkR _ _ r => 1 + r.size
  | .mk2 _ _ l r => 1 + l.size + r.size

/-- One `frequency[char] += 1` step on a `defaultdict(int)` viewed as an
insertion-ordered association list: bump the existing entry in place, or
append a fresh entry with count 1. -/
def bumpFreq (c : Nat) : List (Nat × Nat) → List (Nat × Nat)
  | [] => [(c, 1)]
  | (k, v) :: rest => if k = c then (k, v + 1) :: rest else (k, v) :: bumpFreq c rest

/-- `build_frequency_table` (src/Main.py lines 15–19). -/
def build_frequency_table (text : List Nat) : List (Nat × Nat) :=
  text.foldl (fun f c => bumpFreq c f) []

/-- `abs(total/2 - running)` rescaled by 2 to stay in exact integer
arithmetic: `|total - 2*running|`.  Doubling preserves every comparison
between differences, so the argmin below is the argmin of the Python
expression (whose float arithmetic is exact for totals below 2^53). -/
def diff2 (total running : Nat) : Nat := ((total : Int) - 2 * running).natAbs

/-- The `for i in range(1, len(pairs))` loop of `_split_index_by_balance`:
state `(i, running, best_i, best_diff)`, with `best_diff = none` standing for
the initial `float('inf')`. -/
def splitGo (total : Nat) :
    List (Nat × Nat) → Nat → Nat → Nat → Option Nat → Nat
  | [], _, _, best_i, _ => best_i
  | p :: rest, i, running, best_i, best_diff =>
      let running' := running + p.2
      let d := diff2 total running'
      match best_diff with
      | none => splitGo total rest (i + 1) running' i (some d)
      | some bd =>
          if d < bd then splitGo total rest (i + 1) running' i (some d)
          else splitGo total rest (i + 1) running' best_i (some bd)

/-- `sum(freq for _, freq in pairs)`. -/
def sumFreq (pairs : List (Nat × Nat)) : Nat := (pairs.map Prod.snd).sum

/-- `_split_index_by_balance` (src/Main.py lines 22–35).  The loop reads
`pairs[i-1]` for `i = 1 .. n-1`, i.e. it folds over `pairs.dropLast`. -/
def _split_index_by_balance (pairs : List (Nat × Nat)) : Nat :=
  if pairs.isEmpty then 0
  else splitGo (sumFreq pairs) pairs.dropLast 1 0 1 none

/-- `_build_fano_from_sorted` (src/Main.py lines 37–48), with fuel.  The
recursion depth is at most the list length (each recursive call receives a
strictly shorter list), so fuel `pairs.length` is enough and the fuel-0
branch is never reached from the wrapper. -/
def buildFuel : Nat → List (Nat × Nat) → Option PyNode
  | _, [] => none
  | _, [(ch, fr)] => some (.mk0 fr (some ch))
  | fuel + 1, pairs =>
      let i := _split_index_by_balance pairs
      some (mkNode (sumFreq pairs) none
        (buildFuel fuel (pairs.take i)) (buildFuel fuel (pairs.drop i)))
  | 0, _ => none

def _build_fano_from_sorted (pairs : List (Nat × Nat)) : Option PyNode :=
  buildFuel pairs.length pairs

/-- The comparison realised by
`sorted(frequency.items(), key=lambda kv: kv[1], reverse=True)`:
descending by count. -/
def freqGE (p q : Nat × Nat) : Prop := q.2 ≤ p.2

instance : DecidableRel freqGE := fun _ q => Nat.decLe q.2 _

instance : IsTotal (Nat × Nat) freqGE := ⟨fun p q => Nat.le_total q.2 p.2⟩

instance : IsTrans (Nat × Nat) freqGE := ⟨fun _ _ _ h1 h2 => le_trans h2 h1⟩

/-- Python's `sorted` is a stable sort; `List.insertionSort` with the same
key comparison is the same stable sort (ties keep first-occurrence order). -/
def sortPairs (l : List (Nat × Nat)) : List (Nat × Nat) :=
  List.insertionSort freqGE l

/-- `build_fano_tree` (src/Main.py lines 50–54). -/
def build_fano_tree (frequency : List (Nat × Nat)) : Option PyNode :=
  let pairs := sortPairs frequency
  if pairs.length = 0 then none else _build_fano_from_sorted pairs

/-! ## Code table generation -/

/-- `codebook[char] = code`: Python dict assignment on an insertion-ordered
association list — overwrite in place if present, else append. -/
def dictInsert (k : Nat) (v : List Bool) (d : List (Nat × List Bool)) :
    List (Nat × List Bool) :=
  if d.any (fun e => e.1 == k) then d.map (fun e => if e.1 == k then (k, v) else e)
  else d ++ [(k, v)]

/-- The `while stack` loop of `build_codes_iterative`.  Python appends the
right child (prefix+"1") then the left child (prefix+"0") and pops from the
end, so the left child is processed first; `prefix or "0"` turns the empty
prefix (a single-leaf root) into `"0"`. -/
def buildCodesGo : Nat → List (PyNode × List Bool) →
    List (Nat × List Bool) → List (Nat × List Bool)
  | _, [], cb => cb
  | fuel + 1, (node, pfx) :: rest, cb =>
      match node.char with
      | some c =>
          buildCodesGo fuel rest
            (dictInsert c (if pfx.isEmpty then [false] else pfx) cb)
      | none =>
          buildCodesGo fuel
            ((match node.left with | some l => [(l, pfx ++ [false])] | none => []) ++
             (match node.right with | some r => [(r, pfx ++ [true])] | none => []) ++
             rest) cb
  | 0, _, cb => cb

/-- `build_codes_iterative` (src/Main.py lines 57–71). -/
def build_codes_iterative (root : Option PyNode) : List (Nat × List Bool) :=
  match root with
  | none => []
  | some r => buildCodesGo r.size [(r, [])] []

/-! ## Bit codec -/

/-- Python dict lookup `codebook[char]`; keys are unique so the first match
is the entry.  `none` models the `KeyError`. -/
def lookupCode (k : Nat) : List (Nat × List Bool) → Option (List Bool)
  | [] => none
  | (k', v) :: rest => if k' = k then some v else lookupCode k rest

/-- `encode` (src/Main.py lines 73–74): concatenate the codewords; a missing
symbol raises `KeyError`. -/
def encode (text : List Nat) (codebook : List (Nat × List Bool)) :
    Option (List Bool) :=
  match text with
  | [] => some []
  | c :: rest =>
      match lookupCode c codebook, encode rest codebook with
      | some w, some ws => some (w ++ ws)
      | _, _ => none

/-- The `for bit in encoded_bits` loop of `decode`: walk left on 0 / right
on 1; emit and reset to the root whenever the reached node has a `char`.
Walking into an absent child is Python's `AttributeError` on `None`,
hence `none`. -/
def decodeGo (root : PyNode) : PyNode → List Bool → Option (List Nat)
  | _, [] => some []
  | node, b :: bs =>
      match (if b then node.right else node.left) with
      | none => none
      | some n =>
          match n.char with
          | some c => (decodeGo root root bs).map (fun t => c :: t)
          | none => decodeGo root n bs

/-- `decode` (src/Main.py lines 76–84).  With `root = None` the loop body
dereferences `None` on the first bit; with no bits it returns `''`. -/
def decode (encoded_bits : List Bool) (root : Option PyNode) :
    Option (List Nat) :=
  match root with
  | some r => decodeGo r r encoded_bits
  | none => match encoded_bits with
    | [] => some []
    | _ :: _ => none

/-! ## Tree serialization -/

/-- The `while stack` loop of `serialize_tree_iterative`: tag bit 1 plus
eight symbol bits for a node with a `char`, tag bit 0 for an internal node
whose present children follow (left first, as Python pushes right then left
and pops from the end). -/
def serializeGo : Nat → List PyNode → List Bool
  | _, [] => []
  | fuel + 1, node :: rest =>
      match node.char with
      | some c => true :: (byteBits c ++ serializeGo fuel rest)
      | none =>
          false :: serializeGo fuel
            ((match node.left with | some l => [l] | none => []) ++
             (match node.right with | some r => [r] | none => []) ++ rest)
  | 0, _ => []

/-- `serialize_tree_iterative` (src/Main.py lines 86–102). -/
def serialize_tree_iterative (root : PyNode) : List Nat :=
  bit_string_to_bytes (serializeGo root.size [root])

/-- Attaching a finished subtree during deserialization, mirroring the
mutation in src/Main.py lines 115–123 and 126–135: with an empty stack the
subtree becomes the new root; otherwise it fills the top node's left slot if
that is empty, else its right slot, completing the top node — whose own
attachment was recorded when it was created, so completion cascades. -/
def attachComplete (t : PyNode) :
    List (Option PyNode) → Option PyNode → List (Option PyNode) × Option PyNode
  | [], _ => ([], some t)
  | none :: rest, root => (some t :: rest, root)
  | some l :: rest, root => attachComplete (.mk2 0 none l t) rest root

/-- Materialise one incomplete internal node when the bit stream is
exhausted: frame `f` is its already-finished left child (if any), `t` the
partially rebuilt subtree hanging off its first unfilled slot. -/
def frameClose (t : Option PyNode) (f : Option PyNode) : PyNode :=
  match f, t with
  | none, none => .mk0 0 none
  | none, some x => .mkL 0 none x
  | some l, none => .mkL 0 none l
  | some l, some x => .mk2 0 none l x

def foldFrames : Option PyNode → List (Option PyNode) → Option PyNode
  | t, [] => t
  | t, f :: rest => foldFrames (some (frameClose t f)) rest

/-- The `return root` after `StopIteration`: if incomplete internal nodes
remain (non-empty stack), the root is the bottom-most of them, rebuilt with
its missing children absent; otherwise the last completed tree. -/
def finishStack (stack : List (Option PyNode)) (root : Option PyNode) :
    Option PyNode :=
  match stack with
  | [] => root
  | _ :: _ => foldFrames none stack

/-- The `while True` loop of `deserialize_tree_iterative`: tag 1 reads an
8-bit symbol and attaches a leaf `Node(0, chr(...))`; tag 0 attaches and
pushes an incomplete internal `Node(0, None)`; exhaustion mid-symbol is the
(uncaught, PEP 479) `RuntimeError`, hence `none`. -/
def deserializeGo :
    List Bool → List (Option PyNode) → Option PyNode → Option (Option PyNode)
  | [], stack, root => some (finishStack stack root)
  | false :: bs, stack, root => deserializeGo bs (none :: stack) root
  | true :: b1 :: b2 :: b3 :: b4 :: b5 :: b6 :: b7 :: b8 :: bs, stack, root =>
      let c := bitsToNat [b1, b2, b3, b4, b5, b6, b7, b8]
      let pr := attachComplete (.mk0 0 (some c)) stack root
      deserializeGo bs pr.1 pr.2
  | true :: _, _, _ => none

/-- `deserialize_tree_iterative` (src/Main.py lines 104–138).  The outer
`Option` is failure (`IndexError` on empty bytes, `RuntimeError` on a
truncated symbol); the inner `Option` is the returned `root`, which is
`None` when no tag bits were present. -/
def deserialize_tree_iterative (bit_bytes : List Nat) : Option (Option PyNode) :=
  (bytes_to_bit_string bit_bytes).bind fun bits => deserializeGo bits [] none

/-! ## Container -/

/-- `load_encoded_file` (src/Main.py lines 163–171) on the file's byte
contents: fewer than four header bytes raise `ValueError`; otherwise the
big-endian `u32` length prefix is read and `f.read(tree_length)` returns *at
most* `tree_length` bytes — silently fewer when the file is short. -/
def load_encoded_file (data : List Nat) : Option (List Nat × List Nat) :=
  match data with
  | b0 :: b1 :: b2 :: b3 :: rest =>
      let tree_length := ((b0 * 256 + b1) * 256 + b2) * 256 + b3
      some (rest.take tree_length, rest.drop tree_length)
  | _ => none

/-! ## Claims about the bit packer (C2, C10) -/

/-- C2: For every bit sequence b (of any finite length, including length 0),
unpacking the packed byte form of b recovers b exactly:
`bytes_to_bit_string(bit_string_to_bytes(b)) == b`. -/
theorem C2_bit_packing_roundtrip (b : List Bool) :
    bytes_to_bit_string (bit_string_to_bytes b) = some b :=
  unpack_pack b

/-- The stride-8 chunking loop yields exactly the `ceil(len/8)` slices
`s[8k : 8k+8]`, each valued MSB-first. -/
lemma chunksGo_eq_range : ∀ (fuel : Nat) (s : List Bool), s.length ≤ fuel →
    chunksGo fuel s = (List.range ((s.length + 7) / 8)).map
      (fun k => bitsToNat ((s.drop (8 * k)).take 8)) := by
  intro fuel
  induction fuel with
  | zero =>
      intro s hle
      have : s = [] := List.eq_nil_of_length_eq_zero (by omega)
      subst this; simp [chunksGo]
  | succ fuel ih =>
      intro s hle
      rcases s with _ | ⟨a, t⟩
      · simp [chunksGo]
      · have hle2 : ((a :: t).drop 8).length ≤ fuel := by
          simp only [List.length_drop, List.length_cons]
          simp only [List.length_cons] at hle
          omega
        have hcount : ((a :: t).length + 7) / 8
            = (((a :: t).drop 8).length + 7) / 8 + 1 := by
          simp only [List.length_cons, List.length_drop]
          omega
        rw [hcount, List.range_succ_eq_map, List.map_cons, List.map_map]
        have hstep : chunksGo (fuel + 1) (a :: t)
            = bitsToNat ((a :: t).take 8) :: chunksGo fuel ((a :: t).drop 8) := rfl
        rw [hstep, ih _ hle2]
        refine congrArg₂ List.cons ?_ ?_
        · simp
        · refine List.map_congr_left ?_
          intro k _
          simp only [Function.comp]
          rw [List.drop_drop]
          congr 3
          omega

/-- C10: The packed byte form of a bit string of length n is exactly one
leading byte holding the padding count `(8 - n mod 8) mod 8`, followed by
`ceil(n/8)` payload bytes, each the MSB-first value of its 8-bit slice of
the zero-padded bit string; the packed output is never empty, while
`bytes_to_bit_string` on an empty byte sequence fails. -/
theorem C10_pack_layout (b : List Bool) :
    bit_string_to_bytes b
      = ((8 - b.length % 8) % 8)
        :: (List.range ((b.length + 7) / 8)).map
            (fun k => bitsToNat
              (((b ++ List.replicate ((8 - b.length % 8) % 8) false).drop (8 * k)).take 8))
    ∧ bit_string_to_bytes b ≠ []
    ∧ (8 - b.length % 8) % 8 < 8
    ∧ bytes_to_bit_string [] = none := by
  refine ⟨?_, by simp [bit_string_to_bytes], by omega, rfl⟩
  show (((8 - b.length % 8) % 8) ::
      chunksToBytes (b ++ List.replicate ((8 - b.length % 8) % 8) false)) = _
  congr 1
  rw [chunksToBytes, chunksGo_eq_range _ _ le_rfl]
  have hlen : (b ++ List.replicate ((8 - b.length % 8) % 8) false).length
      = b.length + (8 - b.length % 8) % 8 := by simp
  rw [hlen]
  have : (b.length + (8 - b.length % 8) % 8 + 7) / 8 = (b.length + 7) / 8 := by
    omega
  rw [this]

/-! ## Claim C6: container length validation (corrected) -/

/-- C6 counterexample: a container whose serialized-tree-length field (5)
exceeds the remaining byte count (0) is read *successfully*: the code
returns an empty tree segment and empty payload instead of failing. -/
theorem C6_counterexample : load_encoded_file [0, 0, 0, 5] = some ([], []) := rfl

/-- C6 amended: `load_encoded_file` fails only when the 4-byte length header
itself is incomplete.  An oversized tree-length field is not detected:
all remaining bytes are returned as the (short) tree segment and the payload
comes back empty, with no error before decoding. -/
theorem C6_amended (b0 b1 b2 b3 : Nat) (rest : List Nat)
    (hshort : rest.length < ((b0 * 256 + b1) * 256 + b2) * 256 + b3) :
    load_encoded_file (b0 :: b1 :: b2 :: b3 :: rest) = some (rest, []) := by
  simp only [load_encoded_file]
  rw [List.take_of_length_le (le_of_lt hshort),
    List.drop_eq_nil_of_le (le_of_lt hshort)]

theorem C6_amended_witness :
    ([] : List Nat).length < ((0 * 256 + 0) * 256 + 0) * 256 + 5
    ∧ load_encoded_file [0, 0, 0, 5] = some ([], []) :=
  ⟨by decide, C6_amended 0 0 0 5 [] (by decide)⟩

/-! ## Claim C5: deserialization of exhausted tag streams (corrected) -/

/-- C5 counterexample: the byte input `[7, 0]` carries the single tag bit 0 —
an internal node with both child slots unfilled when the stream is
exhausted — yet deserialization returns that childless internal node
instead of failing. -/
theorem C5_counterexample :
    deserialize_tree_iterative [7, 0] = some (some (.mk0 0 none)) := by decide

/-- The left spine of childless internal nodes of depth `k`. -/
def leftSpine : Nat → PyNode
  | 0 => .mk0 0 none
  | k + 1 => .mkL 0 none (leftSpine k)

lemma deserializeGo_replicate_false : ∀ (m : Nat) (stack : List (Option PyNode))
    (root : Option PyNode),
    deserializeGo (List.replicate m false) stack root
      = some (finishStack (List.replicate m none ++ stack) root) := by
  intro m
  induction m with
  | zero => intro stack root; rfl
  | succ m ih =>
      intro stack root
      show deserializeGo (List.replicate m false) (none :: stack) root = _
      rw [ih (none :: stack) root, List.replicate_succ']
      simp

/-- Wrapping `x` in `m` left-only internal nodes. -/
def mkLiter : Nat → PyNode → PyNode
  | 0, x => x
  | m + 1, x => .mkL 0 none (mkLiter m x)

lemma mkLiter_mkL : ∀ (m : Nat) (x : PyNode),
    mkLiter m (.mkL 0 none x) = .mkL 0 none (mkLiter m x) := by
  intro m
  induction m with
  | zero => intro x; rfl
  | succ m ih =>
      intro x
      show PyNode.mkL 0 none (mkLiter m (.mkL 0 none x)) = _
      rw [ih]
      rfl

lemma foldFrames_none_frames : ∀ (m : Nat) (x : PyNode),
    foldFrames (some x) (List.replicate m none) = some (mkLiter m x) := by
  intro m
  induction m with
  | zero => intro x; rfl
  | succ m ih =>
      intro x
      show foldFrames (some (frameClose (some x) none)) (List.replicate m none) = _
      rw [show frameClose (some x) none = .mkL 0 none x from rfl, ih, mkLiter_mkL]
      rfl

lemma mkLiter_mk0_leftSpine : ∀ k : Nat, mkLiter k (.mk0 0 none) = leftSpine k := by
  intro k
  induction k with
  | zero => rfl
  | succ k ih =>
      show PyNode.mkL 0 none (mkLiter k (.mk0 0 none)) = _
      rw [ih]
      rfl

/-- C5 amended: when the tag bit stream is exhausted while internal nodes
still have unfilled child slots, deserialization does *not* fail: it
returns the partially built tree, with the unfilled slots left as missing
children.  In particular a packed stream of `k+1` bare internal tags yields
the depth-`k` left spine of childless internal nodes. -/
theorem C5_amended (k : Nat) :
    deserialize_tree_iterative (bit_string_to_bytes (List.replicate (k + 1) false))
      = some (some (leftSpine k)) := by
  rw [deserialize_tree_iterative, unpack_pack]
  show deserializeGo (List.replicate (k + 1) false) [] none = _
  rw [deserializeGo_replicate_false (k + 1) [] none, List.append_nil]
  show some (foldFrames (some (frameClose none none)) (List.replicate k none)) = _
  rw [show frameClose none none = .mk0 0 none from rfl,
    foldFrames_none_frames, mkLiter_mk0_leftSpine]

/-! ## Claim C4: decode and truncated codewords (corrected) -/

/-- A well-formed full code tree: every leaf carries a symbol and no
children; every internal node carries no symbol and exactly two children. -/
def isFull : PyNode → Bool
  | .mk0 _ c => c.isSome
  | .mk2 _ c l r => c.isNone && isFull l && isFull r
  | _ => false

/-- C4 counterexample: on the tree built from three equal-weight symbols,
the single bit 1 stops at an internal node (mid-codeword) yet decode
returns successfully with no symbols, and the bits 01 decode the complete
codeword 0 and silently drop the trailing partial codeword 1 — no
`TruncatedStreamError` exists in the code. -/
theorem C4_counterexample :
    decode [true] (build_fano_tree [(0, 1), (1, 1), (2, 1)]) = some []
    ∧ decode [false, true] (build_fano_tree [(0, 1), (1, 1), (2, 1)]) = some [0] := by
  constructor <;> rfl

lemma decodeGo_isSome (root : PyNode) (hroot : isFull root = true)
    (hrootInt : root.char = none) :
    ∀ (bits : List Bool) (node : PyNode), isFull node = true → node.char = none →
      (decodeGo root node bits).isSome = true := by
  intro bits
  induction bits with
  | nil => intro node _ _; rfl
  | cons b bs ih =>
      intro node hfull hint
      -- a full node with no symbol is an internal node with two children
      rcases node with ⟨f, c⟩ | ⟨f, c, l⟩ | ⟨f, c, r⟩ | ⟨f, c, l, r⟩
      · simp [isFull, PyNode.char] at hfull hint
        rw [hint] at hfull
        simp at hfull
      · simp [isFull] at hfull
      · simp [isFull] at hfull
      · simp only [PyNode.char] at hint
        subst hint
        simp only [isFull, Bool.and_eq_true, Option.isNone_none] at hfull
        have hchild : isFull (if b then r else l) = true := by
          cases b <;> simp [hfull.1.2, hfull.2]
        have hstep : decodeGo root (.mk2 f none l r) (b :: bs)
            = match (if b then r else l).char with
              | some c => (decodeGo root root bs).map (fun t => c :: t)
              | none => decodeGo root (if b then r else l) bs := by
          show (match (if b then (PyNode.mk2 f none l r).right
              else (PyNode.mk2 f none l r).left) with
            | none => none
            | some n => match n.char with
              | some c => (decodeGo root root bs).map (fun t => c :: t)
              | none => decodeGo root n bs) = _
          cases b <;> rfl
        rw [hstep]
        cases hc : (if b then r else l).char with
        | some c =>
            have hrec := ih root hroot hrootInt
            cases hdec : decodeGo root root bs with
            | none => rw [hdec] at hrec; simp at hrec
            | some v => simp [hdec]
        | none => exact ih _ hchild hc

/-- C4 amended: decode performs no truncation check at all.  For every full
code tree with an internal root, decoding any bit sequence succeeds: the
symbols of the completely consumed codewords are returned and the bits of a
trailing partial codeword are silently dropped (there is no
`TruncatedStreamError` in the code). -/
theorem C4_amended (t : PyNode) (hfull : isFull t = true) (hint : t.char = none)
    (bits : List Bool) : (decode bits (some t)).isSome = true :=
  decodeGo_isSome t hfull hint bits t hfull hint

theorem C4_amended_witness :
    isFull (PyNode.mk2 3 none (.mk2 2 none (.mk0 1 (some 97)) (.mk0 1 (some 98)))
        (.mk0 1 (some 99))) = true
    ∧ (decode [true]
        (some (PyNode.mk2 3 none (.mk2 2 none (.mk0 1 (some 97)) (.mk0 1 (some 98)))
          (.mk0 1 (some 99))))).isSome = true :=
  ⟨by decide, C4_amended _ (by decide) (by decide) [true]⟩

/-! ## Claim C7: determinism across input orderings (corrected) -/

/-- C7 counterexample: the same two (symbol, weight) pairs presented in two
orders.  The sort is stable on the tied weights, so the trees — and the code
tables — differ: ties are broken by input order, not by a fixed order on the
symbol. -/
theorem C7_counterexample :
    ¬ (build_fano_tree [(0, 1), (1, 1)] = build_fano_tree [(1, 1), (0, 1)]
      ∧ build_codes_iterative (build_fano_tree [(0, 1), (1, 1)])
        = build_codes_iterative (build_fano_tree [(1, 1), (0, 1)])) := by
  decide

/-- Strict descending-weight comparison, antisymmetric because it is
asymmetric. -/
def ltWeight (p q : Nat × Nat) : Prop := q.2 < p.2

instance : IsAntisymm (Nat × Nat) ltWeight :=
  ⟨fun _ _ h1 h2 => absurd h1 (lt_asymm h2)⟩

lemma sortPairs_eq_of_perm (l1 l2 : List (Nat × Nat)) (hperm : l1.Perm l2)
    (hnodup : (l1.map Prod.snd).Nodup) : sortPairs l1 = sortPairs l2 := by
  have h1 : (sortPairs l1).Perm l1 := List.perm_insertionSort freqGE l1
  have h2 : (sortPairs l2).Perm l2 := List.perm_insertionSort freqGE l2
  have hp : (sortPairs l1).Perm (sortPairs l2) :=
    h1.trans (hperm.trans h2.symm)
  have hs1 : (sortPairs l1).Sorted freqGE := List.sorted_insertionSort freqGE l1
  have hs2 : (sortPairs l2).Sorted freqGE := List.sorted_insertionSort freqGE l2
  have hnd1 : ((sortPairs l1).map Prod.snd).Nodup :=
    ((h1.map Prod.snd).nodup_iff).mpr hnodup
  have hnd2 : ((sortPairs l2).map Prod.snd).Nodup :=
    ((h2.map Prod.snd).nodup_iff).mpr
      ((hperm.map Prod.snd).nodup_iff.mp hnodup)
  have hstrict : ∀ (l : List (Nat × Nat)), l.Sorted freqGE →
      (l.map Prod.snd).Nodup → l.Sorted ltWeight := by
    intro l hs hnd
    have hne : l.Pairwise (fun a b => a.2 ≠ b.2) := List.pairwise_map.mp hnd
    exact (hs.and hne).imp fun h => lt_of_le_of_ne h.1 (Ne.symm h.2)
  exact List.eq_of_perm_of_sorted hp (hstrict _ hs1 hnd1) (hstrict _ hs2 hnd2)

/-- C7 amended: the sort breaks weight ties by input order (Python's stable
`sorted`), not by a fixed total order on the symbol, so differently-ordered
frequency tables with tied weights can produce different trees (see the
counterexample).  When all weights are distinct, the original claim holds:
any two orderings of the same pairs yield identical trees and code tables. -/
theorem C7_amended (l1 l2 : List (Nat × Nat)) (hperm : l1.Perm l2)
    (hnodup : (l1.map Prod.snd).Nodup) :
    build_fano_tree l1 = build_fano_tree l2
    ∧ build_codes_iterative (build_fano_tree l1)
      = build_codes_iterative (build_fano_tree l2) := by
  have hsort := sortPairs_eq_of_perm l1 l2 hperm hnodup
  have htree : build_fano_tree l1 = build_fano_tree l2 := by
    unfold build_fano_tree
    rw [hsort]
  exact ⟨htree, congrArg _ htree⟩

theorem C7_amended_witness :
    ([(0, 2), (1, 1)] : List (Nat × Nat)).Perm [(1, 1), (0, 2)]
    ∧ (([(0, 2), (1, 1)] : List (Nat × Nat)).map Prod.snd).Nodup
    ∧ (build_fano_tree [(0, 2), (1, 1)] = build_fano_tree [(1, 1), (0, 2)]
      ∧ build_codes_iterative (build_fano_tree [(0, 2), (1, 1)])
        = build_codes_iterative (build_fano_tree [(1, 1), (0, 2)])) :=
  ⟨by decide, by decide, C7_amended _ _ (by decide) (by decide)⟩

/-! ## Claim C8: the balance-minimizing split index (confirmed) -/

/-- `cumulative_weight(0..k)`: the running sum of the first `k` weights. -/
def cumWeight (pairs : List (Nat × Nat)) (k : Nat) : Nat := sumFreq (pairs.take k)

/-- The sequence of loop diffs: entry `m` is the diff the loop computes after
adding the `(m+1)`-st remaining weight to `run`. -/
def diffsFrom (total : Nat) : List (Nat × Nat) → Nat → List Nat
  | [], _ => []
  | p :: rest, run => diff2 total (run + p.2) :: diffsFrom total rest (run + p.2)

/-- Pure argmin-with-running-best over a value list: candidate `m` has index
`i + m`; a candidate replaces the best only on a strict improvement. -/
def argminP : List Nat → Nat → Nat × Nat → Nat × Nat
  | [], _, best => best
  | d :: ds, i, best =>
      if d < best.2 then argminP ds (i + 1) (i, d) else argminP ds (i + 1) best

lemma diffsFrom_length (total : Nat) :
    ∀ (l : List (Nat × Nat)) (run : Nat), (diffsFrom total l run).length = l.length := by
  intro l
  induction l with
  | nil => intro run; rfl
  | cons p rest ih => intro run; simp [diffsFrom, ih]

lemma sumFreq_cons (p : Nat × Nat) (l : List (Nat × Nat)) :
    sumFreq (p :: l) = p.2 + sumFreq l := by
  simp [sumFreq]

lemma diffsFrom_getD (total : Nat) :
    ∀ (l : List (Nat × Nat)) (run m : Nat), m < l.length →
      (diffsFrom total l run).getD m 0
        = diff2 total (run + sumFreq (l.take (m + 1))) := by
  intro l
  induction l with
  | nil => intro run m hm; simp at hm
  | cons p rest ih =>
      intro run m hm
      cases m with
      | zero =>
          show diff2 total (run + p.2) = _
          congr 1
      | succ m =>
          show (diffsFrom total rest (run + p.2)).getD m 0 = _
          rw [ih (run + p.2) m (by simp only [List.length_cons] at hm; omega)]
          rw [List.take_succ_cons, sumFreq_cons]
          congr 1
          omega

/-- Full characterisation of `argminP`: the result never exceeds the running
best or any candidate, and it is either the running best itself or the
leftmost candidate that strictly improves on the running best and on every
earlier candidate. -/
lemma argminP_spec : ∀ (ds : List Nat) (i : Nat) (best : Nat × Nat),
    (argminP ds i best).2 ≤ best.2
    ∧ (∀ m, m < ds.length → (argminP ds i best).2 ≤ ds.getD m 0)
    ∧ (argminP ds i best = best
      ∨ ∃ m, m < ds.length ∧ argminP ds i best = (i + m, ds.getD m 0)
          ∧ (argminP ds i best).2 < best.2
          ∧ ∀ mm, mm < m → (argminP ds i best).2 < ds.getD mm 0) := by
  intro ds
  induction ds with
  | nil =>
      intro i best
      exact ⟨le_refl _, fun m hm => absurd hm (by simp), Or.inl rfl⟩
  | cons d ds ih =>
      intro i best
      by_cases hlt : d < best.2
      · have hred : argminP (d :: ds) i best = argminP ds (i + 1) (i, d) := by
          simp [argminP, hlt]
        obtain ⟨ha, hb, hc⟩ := ih (i + 1) (i, d)
        rw [hred]
        refine ⟨le_trans ha (le_of_lt hlt), ?_, ?_⟩
        · intro m hm
          cases m with
          | zero => exact ha
          | succ m =>
              exact hb m (by simp only [List.length_cons] at hm; omega)
        · rcases hc with heq | ⟨m, hm, heq, hlt2, hleft⟩
          · right
            refine ⟨0, by simp, ?_, ?_, ?_⟩
            · rw [heq]; simp
            · rw [heq]; exact hlt
            · intro mm hmm; omega
          · right
            refine ⟨m + 1, by simp only [List.length_cons]; omega, ?_, ?_, ?_⟩
            · rw [heq]; congr 1; omega
            · exact lt_trans hlt2 hlt
            · intro mm hmm
              cases mm with
              | zero => exact hlt2
              | succ mm => exact hleft mm (by omega)
      · have hred : argminP (d :: ds) i best = argminP ds (i + 1) best := by
          simp [argminP, hlt]
        obtain ⟨ha, hb, hc⟩ := ih (i + 1) best
        rw [hred]
        have hdge : best.2 ≤ d := le_of_not_lt hlt
        refine ⟨ha, ?_, ?_⟩
        · intro m hm
          cases m with
          | zero => exact le_trans ha hdge
          | succ m =>
              exact hb m (by simp only [List.length_cons] at hm; omega)
        · rcases hc with heq | ⟨m, hm, heq, hlt2, hleft⟩
          · exact Or.inl heq
          · right
            refine ⟨m + 1, by simp only [List.length_cons]; omega, ?_, hlt2, ?_⟩
            · rw [heq]; congr 1; omega
            · intro mm hmm
              cases mm with
              | zero => exact lt_of_lt_of_le hlt2 hdge
              | succ mm => exact hleft mm (by omega)

/-- The loop of `_split_index_by_balance`, running best in hand, is the
argmin over the remaining diffs. -/
lemma splitGo_some_eq (total : Nat) : ∀ (rest : List (Nat × Nat)) (i run bi b : Nat),
    splitGo total rest i run bi (some b)
      = (argminP (diffsFrom total rest run) i (bi, b)).1 := by
  intro rest
  induction rest with
  | nil => intro i run bi b; rfl
  | cons p rest ih =>
      intro i run bi b
      show (if diff2 total (run + p.2) < b
          then splitGo total rest (i + 1) (run + p.2) i (some (diff2 total (run + p.2)))
          else splitGo total rest (i + 1) (run + p.2) bi (some b)) = _
      have hr : argminP (diffsFrom total (p :: rest) run) i (bi, b)
          = (if diff2 total (run + p.2) < b
            then argminP (diffsFrom total rest (run + p.2)) (i + 1)
              (i, diff2 total (run + p.2))
            else argminP (diffsFrom total rest (run + p.2)) (i + 1) (bi, b)) := rfl
      rw [hr]
      by_cases h : diff2 total (run + p.2) < b
      · rw [if_pos h, if_pos h, ih]
      · rw [if_neg h, if_neg h, ih]

lemma splitGo_none_eq (total : Nat) (p : Nat × Nat) (rest : List (Nat × Nat))
    (i run bi : Nat) :
    splitGo total (p :: rest) i run bi none
      = (argminP (diffsFrom total rest (run + p.2)) (i + 1)
          (i, diff2 total (run + p.2))).1 := by
  show splitGo total rest (i + 1) (run + p.2) i (some (diff2 total (run + p.2))) = _
  exact splitGo_some_eq total rest (i + 1) (run + p.2) i _

lemma take_dropLast_eq (pairs : List (Nat × Nat)) (j : Nat)
    (hj : j ≤ pairs.length - 1) : pairs.dropLast.take j = pairs.take j := by
  rw [List.dropLast_eq_take, List.take_take]
  congr 1
  omega

/-- The complete split-index specification, shared by C8 and the tree
builder development: for `n ≥ 2` pairs the chosen index lies in `[1, n-1]`,
minimises the (doubled) balance diff over that range, and is the leftmost
minimiser. -/
lemma split_spec (pairs : List (Nat × Nat)) (h2 : 2 ≤ pairs.length) :
    1 ≤ _split_index_by_balance pairs
    ∧ _split_index_by_balance pairs ≤ pairs.length - 1
    ∧ (∀ j, 1 ≤ j → j ≤ pairs.length - 1 →
        diff2 (sumFreq pairs) (cumWeight pairs (_split_index_by_balance pairs))
          ≤ diff2 (sumFreq pairs) (cumWeight pairs j))
    ∧ (∀ j, 1 ≤ j → j < _split_index_by_balance pairs →
        diff2 (sumFreq pairs) (cumWeight pairs (_split_index_by_balance pairs))
          < diff2 (sumFreq pairs) (cumWeight pairs j)) := by
  have hne : pairs.isEmpty = false := by
    cases pairs with
    | nil => simp at h2
    | cons a t => rfl
  have hsplit0 : _split_index_by_balance pairs
      = splitGo (sumFreq pairs) pairs.dropLast 1 0 1 none := by
    rw [_split_index_by_balance, hne]
    rfl
  have hdll : pairs.dropLast.length = pairs.length - 1 := List.length_dropLast pairs
  obtain ⟨q, rest, hq⟩ : ∃ q rest, pairs.dropLast = q :: rest := by
    cases hdl2 : pairs.dropLast with
    | nil => rw [hdl2] at hdll; simp at hdll; omega
    | cons q rest => exact ⟨q, rest, rfl⟩
  have hrestlen : rest.length = pairs.length - 2 := by
    rw [hq] at hdll; simp only [List.length_cons] at hdll; omega
  -- the diffs of the remaining candidates, after the first loop iteration
  set total := sumFreq pairs with htotal
  set ds := diffsFrom total rest (0 + q.2) with hds
  set best := (1, diff2 total (0 + q.2)) with hbest
  have hrw : _split_index_by_balance pairs = (argminP ds 2 best).1 := by
    rw [hsplit0, hq, splitGo_none_eq]
  -- candidate values are the cumulative-weight diffs of the original list
  have hD1 : diff2 total (0 + q.2) = diff2 total (cumWeight pairs 1) := by
    congr 1
    have : pairs.take 1 = [q] := by
      rw [← take_dropLast_eq pairs 1 (by omega), hq]
      rfl
    rw [cumWeight, this]
    simp [sumFreq]
  have hDm : ∀ m, m < rest.length →
      ds.getD m 0 = diff2 total (cumWeight pairs (m + 2)) := by
    intro m hm
    rw [hds, diffsFrom_getD total rest (0 + q.2) m hm]
    congr 1
    have htake : pairs.take (m + 2) = q :: rest.take (m + 1) := by
      rw [← take_dropLast_eq pairs (m + 2) (by omega), hq, List.take_succ_cons]
    rw [cumWeight, htake, sumFreq_cons]
    omega
  obtain ⟨ha, hb, hc⟩ := argminP_spec ds 2 best
  have hlen : ds.length = pairs.length - 2 := by
    rw [hds, diffsFrom_length]
    exact hrestlen
  -- the returned diff is the diff at the returned index
  have hval : (argminP ds 2 best).2
      = diff2 total (cumWeight pairs (argminP ds 2 best).1) := by
    rcases hc with heq | ⟨m, hm, heq, _, _⟩
    · rw [heq, hbest]
      exact hD1
    · rw [heq]
      show ds.getD m 0 = diff2 total (cumWeight pairs (2 + m))
      rw [Nat.add_comm 2 m]
      exact hDm m (by omega)
  have hbnd : 1 ≤ (argminP ds 2 best).1 ∧ (argminP ds 2 best).1 ≤ pairs.length - 1 := by
    rcases hc with heq | ⟨m, hm, heq, _, _⟩
    · rw [heq, hbest]
      constructor
      · exact le_refl 1
      · omega
    · rw [heq]
      constructor
      · show 1 ≤ 2 + m
        omega
      · show 2 + m ≤ pairs.length - 1
        omega
  rw [hrw]
  refine ⟨hbnd.1, hbnd.2, ?_, ?_⟩
  · intro j hj1 hj2
    rw [← hval]
    rcases Nat.lt_or_ge j 2 with hj | hj
    · have : j = 1 := by omega
      subst this
      rw [← hD1]
      exact le_trans ha (by rw [hbest])
    · have hm : j - 2 < rest.length := by omega
      have := hb (j - 2) (by omega)
      rw [hDm (j - 2) hm] at this
      have hj' : j - 2 + 2 = j := by omega
      rw [hj'] at this
      exact this
  · intro j hj1 hj2
    rw [← hval]
    rcases hc with heq | ⟨m, hm, heq, hlt2, hleft⟩
    · rw [heq] at hj2
      rw [hbest] at hj2
      simp at hj2
      omega
    · rw [heq] at hj2
      simp only [] at hj2
      rcases Nat.lt_or_ge j 2 with hj | hj
      · have : j = 1 := by omega
        subst this
        rw [← hD1]
        have := hlt2
        rw [hbest] at this
        exact this
      · have hmm : j - 2 < m := by omega
        have := hleft (j - 2) hmm
        rw [hDm (j - 2) (by omega)] at this
        have hj' : j - 2 + 2 = j := by omega
        rw [hj'] at this
        exact this

/-- C8: for every list of n ≥ 2 (symbol, weight) pairs, the chosen split
index i satisfies 1 ≤ i ≤ n−1, minimizes the distance between total/2 and
the running weight sum over that range (stated with both sides doubled:
`diff2 total r = |total − 2r| = 2·|total/2 − r|`, which preserves every
comparison, and matches the code's exact float arithmetic for totals below
2^53), and is the leftmost index attaining the minimum. -/
theorem C8_split_index_spec (pairs : List (Nat × Nat)) (h2 : 2 ≤ pairs.length) :
    1 ≤ _split_index_by_balance pairs
    ∧ _split_index_by_balance pairs ≤ pairs.length - 1
    ∧ (∀ j, 1 ≤ j → j ≤ pairs.length - 1 →
        diff2 (sumFreq pairs) (cumWeight pairs (_split_index_by_balance pairs))
          ≤ diff2 (sumFreq pairs) (cumWeight pairs j))
    ∧ (∀ j, 1 ≤ j → j < _split_index_by_balance pairs →
        diff2 (sumFreq pairs) (cumWeight pairs (_split_index_by_balance pairs))
          < diff2 (sumFreq pairs) (cumWeight pairs j)) :=
  split_spec pairs h2

theorem C8_split_index_witness :
    2 ≤ ([(65, 5), (66, 4), (67, 3), (68, 2)] : List (Nat × Nat)).length
    ∧ 1 ≤ _split_index_by_balance [(65, 5), (66, 4), (67, 3), (68, 2)]
    ∧ _split_index_by_balance [(65, 5), (66, 4), (67, 3), (68, 2)]
        ≤ ([(65, 5), (66, 4), (67, 3), (68, 2)] : List (Nat × Nat)).length - 1 := by
  have h := C8_split_index_spec [(65, 5), (66, 4), (67, 3), (68, 2)] (by decide)
  exact ⟨by decide, h.1, h.2.1⟩

/-! ## Claim C9: generated code tables (confirmed) -/

/-- Recursive specification of the code table in emission order: the
iterative stack walk visits the left subtree (prefix+0) before the right
subtree (prefix+1) and applies `prefix or "0"` at nodes carrying a symbol. -/
def codesList : PyNode → List Bool → List (Nat × List Bool)
  | .mk0 _ (some c), p => [(c, if p.isEmpty then [false] else p)]
  | .mkL _ (some c) _, p => [(c, if p.isEmpty then [false] else p)]
  | .mkR _ (some c) _, p => [(c, if p.isEmpty then [false] else p)]
  | .mk2 _ (some c) _ _, p => [(c, if p.isEmpty then [false] else p)]
  | .mk0 _ none, _ => []
  | .mkL _ none l, p => codesList l (p ++ [false])
  | .mkR _ none r, p => codesList r (p ++ [true])
  | .mk2 _ none l r, p => codesList l (p ++ [false]) ++ codesList r (p ++ [true])

/-- Folding a batch of `codebook[...] = ...` assignments. -/
def cbInsertAll (cb entries : List (Nat × List Bool)) : List (Nat × List Bool) :=
  entries.foldl (fun cb e => dictInsert e.1 e.2 cb) cb

def stackSizes (st : List (PyNode × List Bool)) : Nat :=
  (st.map (fun e => e.1.size)).sum

lemma size_pos (t : PyNode) : 1 ≤ t.size := by
  cases t with
  | mk0 f c => simp [PyNode.size]
  | mkL f c l => simp [PyNode.size]
  | mkR f c r => simp [PyNode.size]
  | mk2 f c l r => simp only [PyNode.size]; omega

lemma cbInsertAll_cons (cb : List (Nat × List Bool)) (e : Nat × List Bool)
    (es : List (Nat × List Bool)) :
    cbInsertAll cb (e :: es) = cbInsertAll (dictInsert e.1 e.2 cb) es := rfl

lemma cbInsertAll_append (cb : List (Nat × List Bool))
    (es1 es2 : List (Nat × List Bool)) :
    cbInsertAll cb (es1 ++ es2) = cbInsertAll (cbInsertAll cb es1) es2 := by
  simp [cbInsertAll, List.foldl_append]

/-- The iterative code builder equals the batched insertion of the
recursive code list of each stacked subtree, given enough fuel. -/
lemma buildCodesGo_eq : ∀ (fuel : Nat) (stack : List (PyNode × List Bool))
    (cb : List (Nat × List Bool)), stackSizes stack ≤ fuel →
    buildCodesGo fuel stack cb
      = cbInsertAll cb ((stack.map (fun e => codesList e.1 e.2)).flatten) := by
  intro fuel
  induction fuel with
  | zero =>
      intro stack cb hle
      cases stack with
      | nil => rfl
      | cons e rest =>
          exfalso
          have h1 := size_pos e.1
          simp [stackSizes] at hle
          omega
  | succ fuel ih =>
      intro stack cb hle
      cases stack with
      | nil => rfl
      | cons e rest =>
          obtain ⟨node, pfx⟩ := e
          rcases node with ⟨f, c⟩ | ⟨f, c, l⟩ | ⟨f, c, r⟩ | ⟨f, c, l, r⟩ <;>
            rcases c with _ | ch
          -- mk0, char none
          · show buildCodesGo fuel rest cb = _
            rw [ih rest cb (by simp only [stackSizes, List.map_cons, List.sum_cons,
              PyNode.size] at hle ⊢; omega)]
            rfl
          -- mk0, char some
          · show buildCodesGo fuel rest
                (dictInsert ch (if pfx.isEmpty then [false] else pfx) cb) = _
            rw [ih rest _ (by simp only [stackSizes, List.map_cons, List.sum_cons,
              PyNode.size] at hle ⊢; omega)]
            rfl
          -- mkL, char none
          · show buildCodesGo fuel ((l, pfx ++ [false]) :: rest) cb = _
            rw [ih _ cb (by simp only [stackSizes, List.map_cons, List.sum_cons,
              PyNode.size] at hle ⊢; omega)]
            rfl
          -- mkL, char some
          · show buildCodesGo fuel rest
                (dictInsert ch (if pfx.isEmpty then [false] else pfx) cb) = _
            rw [ih rest _ (by simp only [stackSizes, List.map_cons, List.sum_cons,
              PyNode.size] at hle ⊢; omega)]
            rfl
          -- mkR, char none
          · show buildCodesGo fuel ((r, pfx ++ [true]) :: rest) cb = _
            rw [ih _ cb (by simp only [stackSizes, List.map_cons, List.sum_cons,
              PyNode.size] at hle ⊢; omega)]
            rfl
          -- mkR, char some
          · show buildCodesGo fuel rest
                (dictInsert ch (if pfx.isEmpty then [false] else pfx) cb) = _
            rw [ih rest _ (by simp only [stackSizes, List.map_cons, List.sum_cons,
              PyNode.size] at hle ⊢; omega)]
            rfl
          -- mk2, char none
          · show buildCodesGo fuel ((l, pfx ++ [false]) :: (r, pfx ++ [true]) :: rest) cb = _
            rw [ih _ cb (by simp only [stackSizes, List.map_cons, List.sum_cons,
              PyNode.size] at hle ⊢; omega)]
            show cbInsertAll cb
                (codesList l (pfx ++ [false]) ++ (codesList r (pfx ++ [true])
                  ++ (rest.map (fun e => codesList e.1 e.2)).flatten)) = _
            rw [← List.append_assoc]
            rfl
          -- mk2, char some
          · show buildCodesGo fuel rest
                (dictInsert ch (if pfx.isEmpty then [false] else pfx) cb) = _
            rw [ih rest _ (by simp only [stackSizes, List.map_cons, List.sum_cons,
              PyNode.size] at hle ⊢; omega)]
            rfl

lemma build_codes_eq (t : PyNode) :
    build_codes_iterative (some t) = cbInsertAll [] (codesList t []) := by
  show buildCodesGo t.size [(t, [])] [] = _
  rw [buildCodesGo_eq t.size [(t, [])] [] (by simp [stackSizes])]
  simp

/-- The symbols stored in a tree, in left-to-right emission order (a node
carrying a symbol is a leaf for the traversals, whatever its children). -/
def treeChars : PyNode → List Nat
  | .mk0 _ (some c) => [c]
  | .mkL _ (some c) _ => [c]
  | .mkR _ (some c) _ => [c]
  | .mk2 _ (some c) _ _ => [c]
  | .mk0 _ none => []
  | .mkL _ none l => treeChars l
  | .mkR _ none r => treeChars r
  | .mk2 _ none l r => treeChars l ++ treeChars r

lemma codesList_keys : ∀ (t : PyNode) (p : List Bool),
    (codesList t p).map Prod.fst = treeChars t := by
  intro t
  induction t with
  | mk0 f c => intro p; cases c <;> simp [codesList, treeChars]
  | mkL f c l ih => intro p; cases c <;> simp [codesList, treeChars, ih]
  | mkR f c r ih => intro p; cases c <;> simp [codesList, treeChars, ih]
  | mk2 f c l r ihl ihr =>
      intro p
      cases c <;> simp [codesList, treeChars, ihl, ihr]

/-- The fueled Shannon–Fano builder on a non-empty pair list produces a full
tree whose symbols, left to right, are exactly the input symbols in order. -/
lemma buildFuel_spec : ∀ (fuel : Nat) (pairs : List (Nat × Nat)), pairs ≠ [] →
    pairs.length ≤ fuel →
    ∃ t, buildFuel fuel pairs = some t
      ∧ treeChars t = pairs.map Prod.fst ∧ isFull t = true := by
  intro fuel
  induction fuel with
  | zero =>
      intro pairs hne hle
      exfalso
      have : pairs = [] := List.eq_nil_of_length_eq_zero (by omega)
      exact hne this
  | succ fuel ih =>
      intro pairs hne hle
      match pairs, hne with
      | [(c, fr)], _ =>
          exact ⟨.mk0 fr (some c), rfl, rfl, rfl⟩
      | p1 :: p2 :: rest, _ =>
          have h2 : 2 ≤ (p1 :: p2 :: rest).length := by simp
          obtain ⟨hi1, hi2, _, _⟩ := split_spec (p1 :: p2 :: rest) h2
          set i := _split_index_by_balance (p1 :: p2 :: rest) with hidef
          set pr := p1 :: p2 :: rest with hpr
          have hn : 2 ≤ pr.length := h2
          have htlen : (pr.take i).length = i := by
            rw [List.length_take]
            have : i ≤ pr.length := le_trans hi2 (by omega)
            omega
          have hdlen : (pr.drop i).length = pr.length - i := by
            rw [List.length_drop]
          have htne : pr.take i ≠ [] := by
            intro h
            rw [h] at htlen
            simp at htlen
            omega
          have hdne : pr.drop i ≠ [] := by
            intro h
            rw [h] at hdlen
            simp at hdlen
            omega
          have hfuel1 : (pr.take i).length ≤ fuel := by
            rw [htlen]
            have := hle
            simp only [hpr] at *
            omega
          have hfuel2 : (pr.drop i).length ≤ fuel := by
            rw [hdlen]
            have := hle
            simp only [hpr] at *
            omega
          obtain ⟨l, hl, hlc, hlf⟩ := ih (pr.take i) htne hfuel1
          obtain ⟨r, hr, hrc, hrf⟩ := ih (pr.drop i) hdne hfuel2
          refine ⟨.mk2 (sumFreq pr) none l r, ?_, ?_, ?_⟩
          · show some (mkNode (sumFreq pr) none
                (buildFuel fuel (pr.take i)) (buildFuel fuel (pr.drop i))) = _
            rw [hl, hr]
            rfl
          · show treeChars l ++ treeChars r = _
            rw [hlc, hrc, ← List.map_append, List.take_append_drop]
          · show (Option.isNone (none : Option Nat) && isFull l && isFull r) = true
            rw [hlf, hrf]
            rfl

lemma codesList_code_ne_nil : ∀ (t : PyNode) (p : List Bool),
    ∀ e ∈ codesList t p, e.2 ≠ [] := by
  intro t
  induction t with
  | mk0 f c =>
      intro p e he
      cases c with
      | none => simp [codesList] at he
      | some ch =>
          simp only [codesList, List.mem_singleton] at he
          subst he
          by_cases hp : p.isEmpty
          · simp [hp]
          · simp only [hp, if_false]
            intro h
            subst h
            simp at hp
  | mkL f c l ih =>
      intro p e he
      cases c with
      | none => exact ih (p ++ [false]) e he
      | some ch =>
          simp only [codesList, List.mem_singleton] at he
          subst he
          by_cases hp : p.isEmpty
          · simp [hp]
          · simp only [hp, if_false]
            intro h
            subst h
            simp at hp
  | mkR f c r ih =>
      intro p e he
      cases c with
      | none => exact ih (p ++ [true]) e he
      | some ch =>
          simp only [codesList, List.mem_singleton] at he
          subst he
          by_cases hp : p.isEmpty
          · simp [hp]
          · simp only [hp, if_false]
            intro h
            subst h
            simp at hp
  | mk2 f c l r ihl ihr =>
      intro p e he
      cases c with
      | none =>
          simp only [codesList, List.mem_append] at he
          rcases he with he | he
          · exact ihl (p ++ [false]) e he
          · exact ihr (p ++ [true]) e he
      | some ch =>
          simp only [codesList, List.mem_singleton] at he
          subst he
          by_cases hp : p.isEmpty
          · simp [hp]
          · simp only [hp, if_false]
            intro h
            subst h
            simp at hp

lemma codesList_prefixed : ∀ (t : PyNode) (p : List Bool), p ≠ [] →
    ∀ e ∈ codesList t p, p <+: e.2 := by
  intro t
  induction t with
  | mk0 f c =>
      intro p hp e he
      cases c with
      | none => simp [codesList] at he
      | some ch =>
          simp only [codesList, List.mem_singleton] at he
          subst he
          have : p.isEmpty = false := by
            cases p with
            | nil => exact absurd rfl hp
            | cons a t => rfl
          simp [this]
  | mkL f c l ih =>
      intro p hp e he
      cases c with
      | none =>
          exact (List.prefix_append p [false]).trans
            (ih (p ++ [false]) (by simp) e he)
      | some ch =>
          simp only [codesList, List.mem_singleton] at he
          subst he
          have : p.isEmpty = false := by
            cases p with
            | nil => exact absurd rfl hp
            | cons a t => rfl
          simp [this]
  | mkR f c r ih =>
      intro p hp e he
      cases c with
      | none =>
          exact (List.prefix_append p [true]).trans
            (ih (p ++ [true]) (by simp) e he)
      | some ch =>
          simp only [codesList, List.mem_singleton] at he
          subst he
          have : p.isEmpty = false := by
            cases p with
            | nil => exact absurd rfl hp
            | cons a t => rfl
          simp [this]
  | mk2 f c l r ihl ihr =>
      intro p hp e he
      cases c with
      | none =>
          simp only [codesList, List.mem_append] at he
          rcases he with he | he
          · exact (List.prefix_append p [false]).trans
              (ihl (p ++ [false]) (by simp) e he)
          · exact (List.prefix_append p [true]).trans
              (ihr (p ++ [true]) (by simp) e he)
      | some ch =>
          simp only [codesList, List.mem_singleton] at he
          subst he
          have : p.isEmpty = false := by
            cases p with
            | nil => exact absurd rfl hp
            | cons a t => rfl
          simp [this]

lemma prefix_eq_of_length {l1 l2 l : List Bool} (h1 : l1 <+: l) (h2 : l2 <+: l)
    (hlen : l1.length = l2.length) : l1 = l2 := by
  rw [List.prefix_iff_eq_take] at h1 h2
  rw [h1, h2, hlen]

/-- The mutual-non-prefix relation on code-table entries. -/
def NonPrefix (a b : Nat × List Bool) : Prop := ¬ a.2 <+: b.2 ∧ ¬ b.2 <+: a.2

lemma nonPrefix_symm : Symmetric NonPrefix := fun _ _ h => ⟨h.2, h.1⟩

lemma codesList_pairwise : ∀ (t : PyNode) (p : List Bool),
    List.Pairwise NonPrefix (codesList t p) := by
  intro t
  induction t with
  | mk0 f c =>
      intro p
      cases c <;> simp [codesList]
  | mkL f c l ih =>
      intro p
      cases c <;> simp [codesList, ih]
  | mkR f c r ih =>
      intro p
      cases c <;> simp [codesList, ih]
  | mk2 f c l r ihl ihr =>
      intro p
      cases c with
      | some ch => simp [codesList]
      | none =>
          simp only [codesList]
          rw [List.pairwise_append]
          refine ⟨ihl _, ihr _, ?_⟩
          intro a ha b hb
          have hpa := codesList_prefixed l (p ++ [false]) (by simp) a ha
          have hpb := codesList_prefixed r (p ++ [true]) (by simp) b hb
          have hlen : (p ++ [false]).length = (p ++ [true]).length := by simp
          constructor
          · intro hab
            have h1 : (p ++ [false]) <+: b.2 := hpa.trans hab
            have := prefix_eq_of_length h1 hpb hlen
            have : ([false] : List Bool) = [true] := List.append_cancel_left this
            simp at this
          · intro hba
            have h1 : (p ++ [true]) <+: a.2 := hpb.trans hba
            have := prefix_eq_of_length hpa h1 hlen
            have : ([false] : List Bool) = [true] := List.append_cancel_left this
            simp at this

lemma dictInsert_fresh (k : Nat) (v : List Bool) (cb : List (Nat × List Bool))
    (hk : k ∉ cb.map Prod.fst) : dictInsert k v cb = cb ++ [(k, v)] := by
  rw [dictInsert, if_neg]
  intro h
  rw [List.any_eq_true] at h
  obtain ⟨e, he, heq⟩ := h
  exact hk (List.mem_map.mpr ⟨e, he, by simpa using heq⟩)

lemma cbInsertAll_fresh : ∀ (entries cb : List (Nat × List Bool)),
    ((cb ++ entries).map Prod.fst).Nodup → cbInsertAll cb entries = cb ++ entries := by
  intro entries
  induction entries with
  | nil => intro cb _; simp [cbInsertAll]
  | cons e es ih =>
      intro cb h
      have hfresh : e.1 ∉ cb.map Prod.fst := by
        intro hmem
        rw [List.map_append, List.nodup_append] at h
        exact h.2.2 hmem (by simp)
      rw [cbInsertAll_cons, dictInsert_fresh e.1 e.2 cb hfresh]
      have hassoc : cb ++ e :: es = (cb ++ [e]) ++ es := by simp
      rw [hassoc] at h ⊢
      exact ih (cb ++ [e]) h

lemma lookupCode_mem : ∀ (cb : List (Nat × List Bool)) (k : Nat) (w : List Bool),
    lookupCode k cb = some w → (k, w) ∈ cb := by
  intro cb
  induction cb with
  | nil => intro k w h; simp [lookupCode] at h
  | cons e rest ih =>
      intro k w h
      obtain ⟨k1, v1⟩ := e
      by_cases hk : k1 = k
      · subst hk
        rw [lookupCode, if_pos rfl] at h
        injection h with h
        subst h
        exact List.mem_cons_self _ _
      · rw [lookupCode, if_neg hk] at h
        exact List.mem_cons_of_mem _ (ih k w h)

lemma mem_lookupCode : ∀ (cb : List (Nat × List Bool)) (k : Nat) (w : List Bool),
    (cb.map Prod.fst).Nodup → (k, w) ∈ cb → lookupCode k cb = some w := by
  intro cb
  induction cb with
  | nil => intro k w _ h; simp at h
  | cons e rest ih =>
      intro k w hnd hmem
      obtain ⟨k1, v1⟩ := e
      rcases List.mem_cons.mp hmem with heq | hmem2
      · injection heq with h1 h2
        subst h1
        subst h2
        rw [lookupCode, if_pos rfl]
      · have hk : k1 ≠ k := by
          intro h
          subst h
          simp only [List.map_cons, List.nodup_cons] at hnd
          exact hnd.1 (List.mem_map.mpr ⟨(k1, w), hmem2, rfl⟩)
        rw [lookupCode, if_neg hk]
        simp only [List.map_cons, List.nodup_cons] at hnd
        exact ih k w hnd.2 hmem2

/-- Master lemma: on a non-empty frequency table with distinct symbols, the
pipeline builds a full tree carrying the sorted symbols, and the iterative
code builder returns exactly the recursive code list of that tree. -/
lemma built_codebook (freq : List (Nat × Nat)) (hne : freq ≠ [])
    (hkeys : (freq.map Prod.fst).Nodup) :
    ∃ t, build_fano_tree freq = some t ∧ isFull t = true
      ∧ treeChars t = (sortPairs freq).map Prod.fst
      ∧ build_codes_iterative (some t) = codesList t []
      ∧ (sortPairs freq).Perm freq := by
  have hperm : (sortPairs freq).Perm freq := List.perm_insertionSort freqGE freq
  have hlen : (sortPairs freq).length = freq.length := hperm.length_eq
  have hne' : sortPairs freq ≠ [] := by
    intro h
    rw [h] at hlen
    exact hne (List.eq_nil_of_length_eq_zero hlen.symm)
  have hkeys' : ((sortPairs freq).map Prod.fst).Nodup :=
    ((hperm.map Prod.fst).nodup_iff).mpr hkeys
  obtain ⟨t, ht, htc, htf⟩ :=
    buildFuel_spec (sortPairs freq).length (sortPairs freq) hne' le_rfl
  have htree : build_fano_tree freq = some t := by
    show (if (sortPairs freq).length = 0 then none
      else _build_fano_from_sorted (sortPairs freq)) = some t
    rw [if_neg (fun h => hne' (List.eq_nil_of_length_eq_zero h))]
    exact ht
  refine ⟨t, htree, htf, htc, ?_, hperm⟩
  rw [build_codes_eq t]
  have hnd : (([] ++ codesList t []).map Prod.fst).Nodup := by
    rw [List.nil_append, codesList_keys, htc]
    exact hkeys'
  rw [cbInsertAll_fresh (codesList t []) [] hnd, List.nil_append]

/-- C9: for every non-empty frequency table (distinct symbols, as in a
Python dict), the generated code table maps each symbol of the table to a
non-empty codeword, codewords of distinct symbols are mutually
non-prefixing, and a one-symbol alphabet gets the single-entry table
`{symbol: "0"}`. -/
theorem C9_code_table_properties (freq : List (Nat × Nat)) (hne : freq ≠ [])
    (hkeys : (freq.map Prod.fst).Nodup) :
    (∀ p ∈ freq, ∃ w,
        lookupCode p.1 (build_codes_iterative (build_fano_tree freq)) = some w
        ∧ w ≠ [])
    ∧ (∀ a ∈ freq, ∀ b ∈ freq, a.1 ≠ b.1 → ∀ wa wb,
        lookupCode a.1 (build_codes_iterative (build_fano_tree freq)) = some wa →
        lookupCode b.1 (build_codes_iterative (build_fano_tree freq)) = some wb →
        ¬ wa <+: wb ∧ ¬ wb <+: wa)
    ∧ (∀ k fr, freq = [(k, fr)] →
        build_codes_iterative (build_fano_tree freq) = [(k, [false])]) := by
  obtain ⟨t, htree, htf, htc, hcb, hperm⟩ := built_codebook freq hne hkeys
  have hkeyeq : (codesList t []).map Prod.fst = (sortPairs freq).map Prod.fst := by
    rw [codesList_keys, htc]
  have hnd : ((codesList t []).map Prod.fst).Nodup := by
    rw [hkeyeq]
    exact ((hperm.map Prod.fst).nodup_iff).mpr hkeys
  refine ⟨?_, ?_, ?_⟩
  · intro p hp
    have hmem : p.1 ∈ (codesList t []).map Prod.fst := by
      rw [hkeyeq]
      exact (hperm.map Prod.fst).mem_iff.mpr (List.mem_map.mpr ⟨p, hp, rfl⟩)
    obtain ⟨e, he, heq⟩ := List.mem_map.mp hmem
    refine ⟨e.2, ?_, codesList_code_ne_nil t [] e he⟩
    rw [htree, hcb]
    have hpe : (p.1, e.2) = e := by
      rw [← heq]
    exact mem_lookupCode (codesList t []) p.1 e.2 hnd (by rw [hpe]; exact he)
  · intro a _ b _ hab wa wb hla hlb
    rw [htree, hcb] at hla hlb
    have hmema : (a.1, wa) ∈ codesList t [] := lookupCode_mem _ _ _ hla
    have hmemb : (b.1, wb) ∈ codesList t [] := lookupCode_mem _ _ _ hlb
    have hne2 : ((a.1, wa) : Nat × List Bool) ≠ (b.1, wb) := by
      intro h
      have hfst := congrArg Prod.fst h
      exact hab hfst
    exact List.Pairwise.forall nonPrefix_symm (codesList_pairwise t []) hmema hmemb hne2
  · intro k fr heq
    subst heq
    rfl

theorem C9_code_table_witness :
    (([(65, 5), (66, 4)] : List (Nat × Nat)) ≠ []
      ∧ (([(65, 5), (66, 4)] : List (Nat × Nat)).map Prod.fst).Nodup)
    ∧ (∀ p ∈ ([(65, 5), (66, 4)] : List (Nat × Nat)), ∃ w,
        lookupCode p.1 (build_codes_iterative (build_fano_tree [(65, 5), (66, 4)]))
          = some w ∧ w ≠ []) := by
  have h := C9_code_table_properties [(65, 5), (66, 4)] (by decide) (by decide)
  exact ⟨⟨by decide, by decide⟩, h.1⟩

/-! ## Claim C3: tree serialization round trip (confirmed) -/

/-- Recursive specification of the preorder serializer: tag 1 plus eight
symbol bits at a node carrying a symbol, tag 0 followed by the present
children (left first) otherwise. -/
def serRec : PyNode → List Bool
  | .mk0 _ (some c) => true :: byteBits c
  | .mkL _ (some c) _ => true :: byteBits c
  | .mkR _ (some c) _ => true :: byteBits c
  | .mk2 _ (some c) _ _ => true :: byteBits c
  | .mk0 _ none => [false]
  | .mkL _ none l => false :: serRec l
  | .mkR _ none r => false :: serRec r
  | .mk2 _ none l r => false :: (serRec l ++ serRec r)

lemma serializeGo_eq : ∀ (fuel : Nat) (stack : List PyNode),
    (stack.map PyNode.size).sum ≤ fuel →
    serializeGo fuel stack = (stack.map serRec).flatten := by
  intro fuel
  induction fuel with
  | zero =>
      intro stack hle
      cases stack with
      | nil => rfl
      | cons t rest =>
          exfalso
          have := size_pos t
          simp at hle
          omega
  | succ fuel ih =>
      intro stack hle
      cases stack with
      | nil => rfl
      | cons node rest =>
          rcases node with ⟨f, c⟩ | ⟨f, c, l⟩ | ⟨f, c, r⟩ | ⟨f, c, l, r⟩ <;>
            rcases c with _ | ch
          · show false :: serializeGo fuel rest = _
            rw [ih rest (by simp only [List.map_cons, List.sum_cons,
              PyNode.size] at hle ⊢; omega)]
            rfl
          · show true :: (byteBits ch ++ serializeGo fuel rest) = _
            rw [ih rest (by simp only [List.map_cons, List.sum_cons,
              PyNode.size] at hle ⊢; omega)]
            rfl
          · show false :: serializeGo fuel (l :: rest) = _
            rw [ih (l :: rest) (by simp only [List.map_cons, List.sum_cons,
              PyNode.size] at hle ⊢; omega)]
            rfl
          · show true :: (byteBits ch ++ serializeGo fuel rest) = _
            rw [ih rest (by simp only [List.map_cons, List.sum_cons,
              PyNode.size] at hle ⊢; omega)]
            rfl
          · show false :: serializeGo fuel (r :: rest) = _
            rw [ih (r :: rest) (by simp only [List.map_cons, List.sum_cons,
              PyNode.size] at hle ⊢; omega)]
            rfl
          · show true :: (byteBits ch ++ serializeGo fuel rest) = _
            rw [ih rest (by simp only [List.map_cons, List.sum_cons,
              PyNode.size] at hle ⊢; omega)]
            rfl
          · have hb : (List.map PyNode.size (l :: r :: rest)).sum ≤ fuel := by
              simp only [List.map_cons, List.sum_cons, PyNode.size] at hle ⊢
              omega
            show false :: serializeGo fuel (l :: r :: rest) = _
            rw [ih (l :: r :: rest) hb]
            show false :: (serRec l ++ (serRec r ++ (rest.map serRec).flatten)) = _
            rw [← List.append_assoc]
            rfl
          · have hb : (List.map PyNode.size rest).sum ≤ fuel := by
              simp only [List.map_cons, List.sum_cons, PyNode.size] at hle ⊢
              omega
            show true :: (byteBits ch ++ serializeGo fuel rest) = _
            rw [ih rest hb]
            rfl

/-- Every symbol stored in the tree fits in the 8-bit payload field. -/
def allBytes : PyNode → Bool
  | .mk0 _ c => c.all (fun x => x < 256)
  | .mkL _ c l => c.all (fun x => x < 256) && allBytes l
  | .mkR _ c r => c.all (fun x => x < 256) && allBytes r
  | .mk2 _ c l r => c.all (fun x => x < 256) && allBytes l && allBytes r

/-- Deserialization rebuilds every node with `freq = 0` (Python's
`Node(0, …)`); shape and symbols are preserved. -/
def stripFreq : PyNode → PyNode
  | .mk0 _ c => .mk0 0 c
  | .mkL _ c l => .mkL 0 c (stripFreq l)
  | .mkR _ c r => .mkR 0 c (stripFreq r)
  | .mk2 _ c l r => .mk2 0 c (stripFreq l) (stripFreq r)

lemma codesList_strip : ∀ (t : PyNode) (p : List Bool),
    codesList (stripFreq t) p = codesList t p := by
  intro t
  induction t with
  | mk0 f c => intro p; cases c <;> rfl
  | mkL f c l ih => intro p; cases c <;> simp [stripFreq, codesList, ih]
  | mkR f c r ih => intro p; cases c <;> simp [stripFreq, codesList, ih]
  | mk2 f c l r ihl ihr =>
      intro p
      cases c <;> simp [stripFreq, codesList, ihl, ihr]

/-- Parsing the serialized bits of a full byte-symbol tree consumes exactly
those bits and attaches the freq-stripped copy of the tree. -/
lemma parse_serRec : ∀ (t : PyNode), isFull t = true → allBytes t = true →
    ∀ (rest : List Bool) (stack : List (Option PyNode)) (root : Option PyNode),
      deserializeGo (serRec t ++ rest) stack root
        = deserializeGo rest (attachComplete (stripFreq t) stack root).1
            (attachComplete (stripFreq t) stack root).2 := by
  intro t
  induction t with
  | mk0 f c =>
      intro hfull hbytes rest stack root
      cases c with
      | none => simp [isFull] at hfull
      | some ch =>
          have hch : ch < 256 := by
            simpa [allBytes, Option.all] using hbytes
          have hstep : deserializeGo ((true :: byteBits ch) ++ rest) stack root
              = deserializeGo rest
                  (attachComplete (.mk0 0 (some (bitsToNat (byteBits ch)))) stack root).1
                  (attachComplete (.mk0 0 (some (bitsToNat (byteBits ch)))) stack root).2 :=
            rfl
          rw [show serRec (.mk0 f (some ch)) = true :: byteBits ch from rfl, hstep,
            bitsToNat_byteBits hch]
          rfl
  | mkL f c l ih =>
      intro hfull hbytes rest stack root
      cases c <;> simp [isFull] at hfull
  | mkR f c r ih =>
      intro hfull hbytes rest stack root
      cases c <;> simp [isFull] at hfull
  | mk2 f c l r ihl ihr =>
      intro hfull hbytes rest stack root
      cases c with
      | some ch => simp [isFull] at hfull
      | none =>
          simp only [isFull, Bool.and_eq_true, Option.isNone_none] at hfull
          simp only [allBytes, Bool.and_eq_true] at hbytes
          have hstep : deserializeGo ((false :: (serRec l ++ serRec r)) ++ rest) stack root
              = deserializeGo ((serRec l ++ serRec r) ++ rest) (none :: stack) root := rfl
          rw [show serRec (.mk2 f none l r) = false :: (serRec l ++ serRec r) from rfl,
            hstep, List.append_assoc,
            ihl hfull.1.2 hbytes.1.2 (serRec r ++ rest) (none :: stack) root]
          have hatt1 : attachComplete (stripFreq l) (none :: stack) root
              = (some (stripFreq l) :: stack, root) := rfl
          rw [hatt1, ihr hfull.2 hbytes.2 rest (some (stripFreq l) :: stack) root]
          rfl

lemma serialize_deserialize (t : PyNode) (hfull : isFull t = true)
    (hbytes : allBytes t = true) :
    deserialize_tree_iterative (serialize_tree_iterative t)
      = some (some (stripFreq t)) := by
  rw [deserialize_tree_iterative, serialize_tree_iterative, unpack_pack]
  show deserializeGo (serializeGo t.size [t]) [] none = _
  rw [serializeGo_eq t.size [t] (by simp)]
  show deserializeGo (serRec t ++ []) [] none = _
  rw [parse_serRec t hfull hbytes [] [] none]
  rfl

/-- C3: for every full binary code tree whose symbols are single-byte code
points, deserializing the serialization yields a tree inducing a code table
identical to the original's. -/
theorem C3_serialize_roundtrip (t : PyNode) (hfull : isFull t = true)
    (hbytes : allBytes t = true) :
    ∃ u, deserialize_tree_iterative (serialize_tree_iterative t) = some (some u)
      ∧ build_codes_iterative (some u) = build_codes_iterative (some t) := by
  refine ⟨stripFreq t, serialize_deserialize t hfull hbytes, ?_⟩
  rw [build_codes_eq, build_codes_eq, codesList_strip]

theorem C3_serialize_roundtrip_witness :
    isFull (PyNode.mk2 5 none (.mk0 2 (some 65)) (.mk0 3 (some 66))) = true
    ∧ allBytes (PyNode.mk2 5 none (.mk0 2 (some 65)) (.mk0 3 (some 66))) = true
    ∧ ∃ u, deserialize_tree_iterative (serialize_tree_iterative
          (PyNode.mk2 5 none (.mk0 2 (some 65)) (.mk0 3 (some 66)))) = some (some u)
        ∧ build_codes_iterative (some u)
          = build_codes_iterative
              (some (PyNode.mk2 5 none (.mk0 2 (some 65)) (.mk0 3 (some 66)))) :=
  ⟨by decide, by decide, C3_serialize_roundtrip _ (by decide) (by decide)⟩

/-! ## Claim C1: encode/decode round trip (code bug) -/

/-- The round-trip pipeline of the claim: frequency table, tree, code
table, encode, then decode against the same tree. -/
def encode_then_decode (s : List Nat) : Option (List Nat) :=
  let frequency := build_frequency_table s
  let tree := build_fano_tree frequency
  let codebook := build_codes_iterative tree
  (encode s codebook).bind fun bits => decode bits tree

/-- C1: the round trip holds for the empty sequence but *crashes* on any
single-symbol input: the code table deliberately assigns the codeword "0"
to a one-leaf tree (`prefix or "0"`), encode produces "00000" for "ZZZZZ",
but decode then walks `root.left` of the leaf — `None` — and dies with
`AttributeError` instead of returning the original text.  The spec (and the
encoder half of the code) clearly intend the round trip to succeed, so this
is a bug in `decode`. -/
theorem C1_roundtrip_single_symbol_bug :
    encode_then_decode [90, 90, 90, 90, 90] = none
    ∧ encode [90, 90, 90, 90, 90]
        (build_codes_iterative (build_fano_tree (build_frequency_table
          [90, 90, 90, 90, 90])))
      = some [false, false, false, false, false]
    ∧ encode_then_decode [] = some [] := by
  exact ⟨by decide, by decide, by decide⟩

/-! ## Supporting development: the round trip holds for alphabets of two or
more distinct symbols, so the C1 failure is exactly the single-symbol case. -/

lemma bumpFreq_keys : ∀ (f : List (Nat × Nat)) (c : Nat),
    (bumpFreq c f).map Prod.fst
      = if c ∈ f.map Prod.fst then f.map Prod.fst else f.map Prod.fst ++ [c] := by
  intro f
  induction f with
  | nil => intro c; simp [bumpFreq]
  | cons e rest ih =>
      intro c
      obtain ⟨k, v⟩ := e
      by_cases hk : k = c
      · subst hk
        simp [bumpFreq]
      · have h1 : bumpFreq c ((k, v) :: rest) = (k, v) :: bumpFreq c rest := by
          simp [bumpFreq, hk]
        rw [h1]
        by_cases hmem : c ∈ rest.map Prod.fst
        · have hthis : c ∈ k :: rest.map Prod.fst := List.mem_cons_of_mem k hmem
          simp only [List.map_cons, ih c, hmem, if_true]
          rw [if_pos hthis]
        · have hthis : c ∉ k :: rest.map Prod.fst := by
            intro h
            rcases List.mem_cons.mp h with h | h
            · exact hk h.symm
            · exact hmem h
          simp only [List.map_cons, ih c, hmem, if_false]
          rw [if_neg hthis]
          simp

lemma bumpFreq_mem_self (f : List (Nat × Nat)) (c : Nat) :
    c ∈ (bumpFreq c f).map Prod.fst := by
  rw [bumpFreq_keys]
  by_cases h : c ∈ f.map Prod.fst
  · rw [if_pos h]; exact h
  · rw [if_neg h]; exact List.mem_append_right _ (by simp)

lemma bumpFreq_mem_mono (f : List (Nat × Nat)) (c d : Nat)
    (h : d ∈ f.map Prod.fst) : d ∈ (bumpFreq c f).map Prod.fst := by
  rw [bumpFreq_keys]
  by_cases hc : c ∈ f.map Prod.fst
  · rw [if_pos hc]; exact h
  · rw [if_neg hc]; exact List.mem_append_left _ h

lemma bumpFreq_nodup (f : List (Nat × Nat)) (c : Nat)
    (h : (f.map Prod.fst).Nodup) : ((bumpFreq c f).map Prod.fst).Nodup := by
  rw [bumpFreq_keys]
  by_cases hc : c ∈ f.map Prod.fst
  · rw [if_pos hc]; exact h
  · rw [if_neg hc]
    rw [List.nodup_append]
    exact ⟨h, List.nodup_singleton c, by
      intro a ha hb
      simp only [List.mem_singleton] at hb
      subst hb
      exact hc ha⟩

lemma foldBump_nodup : ∀ (text : List Nat) (f : List (Nat × Nat)),
    (f.map Prod.fst).Nodup →
    ((text.foldl (fun f c => bumpFreq c f) f).map Prod.fst).Nodup := by
  intro text
  induction text with
  | nil => intro f h; exact h
  | cons c rest ih => intro f h; exact ih (bumpFreq c f) (bumpFreq_nodup f c h)

lemma foldBump_mem_mono : ∀ (text : List Nat) (f : List (Nat × Nat)) (d : Nat),
    d ∈ f.map Prod.fst →
    d ∈ (text.foldl (fun f c => bumpFreq c f) f).map Prod.fst := by
  intro text
  induction text with
  | nil => intro f d h; exact h
  | cons c rest ih =>
      intro f d h
      exact ih (bumpFreq c f) d (bumpFreq_mem_mono f c d h)

lemma freq_table_nodup (text : List Nat) :
    ((build_frequency_table text).map Prod.fst).Nodup :=
  foldBump_nodup text [] (by simp)

lemma freq_table_complete (text : List Nat) :
    ∀ c ∈ text, c ∈ (build_frequency_table text).map Prod.fst := by
  have hgen : ∀ (t : List Nat) (f : List (Nat × Nat)) (c : Nat), c ∈ t →
      c ∈ (t.foldl (fun f c => bumpFreq c f) f).map Prod.fst := by
    intro t
    induction t with
    | nil => intro f c h; simp at h
    | cons d rest ih =>
        intro f c h
        rcases List.mem_cons.mp h with h | h
        · subst h
          exact foldBump_mem_mono rest (bumpFreq c f) c (bumpFreq_mem_self f c)
        · exact ih (bumpFreq d f) c h
  intro c hc
  exact hgen text [] c hc

/-- Codewords relative to the subtree root: the `codesList` entries with the
prefix stripped. -/
def codesRel : PyNode → List (Nat × List Bool)
  | .mk0 _ (some c) => [(c, [])]
  | .mkL _ (some c) _ => [(c, [])]
  | .mkR _ (some c) _ => [(c, [])]
  | .mk2 _ (some c) _ _ => [(c, [])]
  | .mk0 _ none => []
  | .mkL _ none l => (codesRel l).map (fun e => (e.1, false :: e.2))
  | .mkR _ none r => (codesRel r).map (fun e => (e.1, true :: e.2))
  | .mk2 _ none l r =>
      (codesRel l).map (fun e => (e.1, false :: e.2))
        ++ (codesRel r).map (fun e => (e.1, true :: e.2))

lemma codesList_eq_rel : ∀ (t : PyNode) (p : List Bool), p ≠ [] →
    codesList t p = (codesRel t).map (fun e => (e.1, p ++ e.2)) := by
  intro t
  induction t with
  | mk0 f c =>
      intro p hp
      cases c with
      | none => rfl
      | some ch =>
          have : p.isEmpty = false := by
            cases p with
            | nil => exact absurd rfl hp
            | cons a t => rfl
          simp [codesList, codesRel, this]
  | mkL f c l ih =>
      intro p hp
      cases c with
      | some ch =>
          have : p.isEmpty = false := by
            cases p with
            | nil => exact absurd rfl hp
            | cons a t => rfl
          simp [codesList, codesRel, this]
      | none =>
          show codesList l (p ++ [false]) = _
          rw [ih (p ++ [false]) (by simp)]
          simp only [codesRel, List.map_map]
          refine List.map_congr_left ?_
          intro e _
          simp [Function.comp]
  | mkR f c r ih =>
      intro p hp
      cases c with
      | some ch =>
          have : p.isEmpty = false := by
            cases p with
            | nil => exact absurd rfl hp
            | cons a t => rfl
          simp [codesList, codesRel, this]
      | none =>
          show codesList r (p ++ [true]) = _
          rw [ih (p ++ [true]) (by simp)]
          simp only [codesRel, List.map_map]
          refine List.map_congr_left ?_
          intro e _
          simp [Function.comp]
  | mk2 f c l r ihl ihr =>
      intro p hp
      cases c with
      | some ch =>
          have : p.isEmpty = false := by
            cases p with
            | nil => exact absurd rfl hp
            | cons a t => rfl
          simp [codesList, codesRel, this]
      | none =>
          show codesList l (p ++ [false]) ++ codesList r (p ++ [true]) = _
          rw [ihl (p ++ [false]) (by simp), ihr (p ++ [true]) (by simp)]
          simp only [codesRel, List.map_append, List.map_map]
          refine congrArg₂ _ ?_ ?_ <;>
            · refine List.map_congr_left ?_
              intro e _
              simp [Function.comp]

/-- At an internal root the absolute and relative code tables coincide. -/
lemma codesList_nil_eq_rel (t : PyNode) (hint : t.char = none)
    (hfull : isFull t = true) : codesList t [] = codesRel t := by
  rcases t with ⟨f, c⟩ | ⟨f, c, l⟩ | ⟨f, c, r⟩ | ⟨f, c, l, r⟩
  · simp only [PyNode.char] at hint
    subst hint
    rfl
  · simp [isFull] at hfull
  · simp [isFull] at hfull
  · simp only [PyNode.char] at hint
    subst hint
    show codesList l [false] ++ codesList r [true] = _
    rw [codesList_eq_rel l [false] (by simp), codesList_eq_rel r [true] (by simp)]
    rfl

/-- Walking the decoder along a relative codeword of a full internal tree
emits that codeword's symbol and resumes at the root. -/
lemma decodeGo_rel (root : PyNode) :
    ∀ (t : PyNode), isFull t = true → t.char = none →
      ∀ (c : Nat) (u : List Bool), (c, u) ∈ codesRel t →
      ∀ (rest : List Bool),
        decodeGo root t (u ++ rest)
          = (decodeGo root root rest).map (fun s => c :: s) := by
  intro t
  induction t with
  | mk0 f ch =>
      intro hfull hint
      simp only [PyNode.char] at hint
      subst hint
      simp [isFull] at hfull
  | mkL f ch l ih =>
      intro hfull
      simp [isFull] at hfull
  | mkR f ch r ih =>
      intro hfull
      simp [isFull] at hfull
  | mk2 f ch l r ihl ihr =>
      intro hfull hint c u hmem rest
      simp only [PyNode.char] at hint
      subst hint
      simp only [isFull, Bool.and_eq_true, Option.isNone_none] at hfull
      simp only [codesRel, List.mem_append] at hmem
      rcases hmem with hmem | hmem
      · obtain ⟨e, he, heq⟩ := List.mem_map.mp hmem
        injection heq with h1 h2
        subst h1
        subst h2
        show decodeGo root (.mk2 f none l r) (false :: (e.2 ++ rest)) = _
        rcases l with ⟨fl, cl⟩ | ⟨fl, cl, ll⟩ | ⟨fl, cl, rl⟩ | ⟨fl, cl, ll, rl⟩
        · -- the left child is a leaf: its sole relative codeword is []
          have hcl : cl.isSome = true := hfull.1.2
          obtain ⟨c', hc'⟩ := Option.isSome_iff_exists.mp hcl
          subst hc'
          have he2 : e = (c', []) := by
            simpa [codesRel] using he
          rw [he2]
          rfl
        · exfalso
          have := hfull.1.2
          simp [isFull] at this
        · exfalso
          have := hfull.1.2
          simp [isFull] at this
        · -- the left child is internal: recurse
          have hlf : isFull (PyNode.mk2 fl cl ll rl) = true := hfull.1.2
          have hcl : cl = none := by
            simp only [isFull, Bool.and_eq_true] at hlf
            exact Option.isNone_iff_eq_none.mp hlf.1.1
          subst hcl
          show decodeGo root (.mk2 fl none ll rl) (e.2 ++ rest) = _
          exact ihl hlf rfl e.1 e.2 he rest
      · obtain ⟨e, he, heq⟩ := List.mem_map.mp hmem
        injection heq with h1 h2
        subst h1
        subst h2
        show decodeGo root (.mk2 f none l r) (true :: (e.2 ++ rest)) = _
        rcases r with ⟨fr, cr⟩ | ⟨fr, cr, lr⟩ | ⟨fr, cr, rr⟩ | ⟨fr, cr, lr, rr⟩
        · have hcr : cr.isSome = true := hfull.2
          obtain ⟨c', hc'⟩ := Option.isSome_iff_exists.mp hcr
          subst hc'
          have he2 : e = (c', []) := by
            simpa [codesRel] using he
          rw [he2]
          rfl
        · exfalso
          have := hfull.2
          simp [isFull] at this
        · exfalso
          have := hfull.2
          simp [isFull] at this
        · have hrf : isFull (PyNode.mk2 fr cr lr rr) = true := hfull.2
          have hcr : cr = none := by
            simp only [isFull, Bool.and_eq_true] at hrf
            exact Option.isNone_iff_eq_none.mp hrf.1.1
          subst hcr
          show decodeGo root (.mk2 fr none lr rr) (e.2 ++ rest) = _
          exact ihr hrf rfl e.1 e.2 he rest

lemma lookupCode_isSome_of_mem_keys :
    ∀ (cb : List (Nat × List Bool)) (k : Nat), k ∈ cb.map Prod.fst →
      (lookupCode k cb).isSome = true := by
  intro cb
  induction cb with
  | nil => intro k h; simp at h
  | cons e rest ih =>
      intro k h
      obtain ⟨k1, v1⟩ := e
      by_cases hk : k1 = k
      · rw [lookupCode, if_pos hk]
        rfl
      · rw [lookupCode, if_neg hk]
        have h' : k ∈ k1 :: rest.map Prod.fst := by simpa using h
        rcases List.mem_cons.mp h' with h1 | h1
        · exact absurd h1.symm hk
        · exact ih k h1

lemma encode_isSome (cb : List (Nat × List Bool)) :
    ∀ (s : List Nat), (∀ c ∈ s, (lookupCode c cb).isSome = true) →
      ∃ bits, encode s cb = some bits := by
  intro s
  induction s with
  | nil => intro _; exact ⟨[], rfl⟩
  | cons c rest ih =>
      intro h
      obtain ⟨w, hw⟩ := Option.isSome_iff_exists.mp (h c (List.mem_cons_self c rest))
      obtain ⟨ws, hws⟩ := ih (fun d hd => h d (List.mem_cons_of_mem c hd))
      exact ⟨w ++ ws, by rw [encode, hw, hws]⟩

/-- The decoder inverts the encoder over the relative code table of a full
internal tree. -/
lemma decode_encode_inverse (t : PyNode) (hfull : isFull t = true)
    (hint : t.char = none) :
    ∀ (s : List Nat) (bits : List Bool),
      encode s (codesRel t) = some bits → decodeGo t t bits = some s := by
  intro s
  induction s with
  | nil =>
      intro bits h
      rw [encode] at h
      injection h with h
      subst h
      rfl
  | cons c rest ih =>
      intro bits h
      cases hw : lookupCode c (codesRel t) with
      | none => rw [encode, hw] at h; exact absurd h (by simp)
      | some w =>
          cases hws : encode rest (codesRel t) with
          | none => rw [encode, hw, hws] at h; exact absurd h (by simp)
          | some ws =>
              rw [encode, hw, hws] at h
              injection h with h
              subst h
              have hmem : (c, w) ∈ codesRel t := lookupCode_mem _ _ _ hw
              rw [decodeGo_rel t t hfull hint c w hmem ws, ih ws hws]
              rfl

/-- A full tree carrying at least two symbols has an internal root. -/
lemma char_none_of_two_chars (t : PyNode) (hfull : isFull t = true)
    (h2 : 2 ≤ (treeChars t).length) : t.char = none := by
  rcases t with ⟨f, c⟩ | ⟨f, c, l⟩ | ⟨f, c, r⟩ | ⟨f, c, l, r⟩
  · cases c with
    | none => rfl
    | some ch => simp [treeChars] at h2
  · simp [isFull] at hfull
  · simp [isFull] at hfull
  · simp only [isFull, Bool.and_eq_true] at hfull
    exact Option.isNone_iff_eq_none.mp hfull.1.1

/-- **Round trip for alphabets of two or more distinct symbols**: decoding
the encoding of `s` against the tree built from `s`'s own frequency table
returns `s`.  The round trip therefore fails only on the one-symbol
alphabets, where decode dereferences the missing child of the lone leaf. -/
theorem roundtrip_multi_symbol (s : List Nat)
    (h2 : 2 ≤ (build_frequency_table s).length) :
    encode_then_decode s = some s := by
  have hne : build_frequency_table s ≠ [] := by
    intro h
    rw [h] at h2
    simp at h2
  have hkeys : ((build_frequency_table s).map Prod.fst).Nodup := freq_table_nodup s
  obtain ⟨t, htree, htf, htc, hcb, hperm⟩ :=
    built_codebook (build_frequency_table s) hne hkeys
  have hchars2 : 2 ≤ (treeChars t).length := by
    rw [htc, List.length_map, hperm.length_eq]
    exact h2
  have hint : t.char = none := char_none_of_two_chars t htf hchars2
  have hcbrel : build_codes_iterative (build_fano_tree (build_frequency_table s))
      = codesRel t := by
    rw [htree, hcb, codesList_nil_eq_rel t hint htf]
  have hlook : ∀ c ∈ s, (lookupCode c (codesRel t)).isSome = true := by
    intro c hc
    refine lookupCode_isSome_of_mem_keys (codesRel t) c ?_
    have hkeyeq : (codesRel t).map Prod.fst = treeChars t := by
      rw [← codesList_nil_eq_rel t hint htf, codesList_keys]
    rw [hkeyeq, htc]
    exact (hperm.map Prod.fst).mem_iff.mpr (freq_table_complete s c hc)
  obtain ⟨bits, hbits⟩ := encode_isSome (codesRel t) s hlook
  have hdec := decode_encode_inverse t htf hint s bits hbits
  show (encode s (build_codes_iterative (build_fano_tree (build_frequency_table s)))).bind
      (fun bits => decode bits (build_fano_tree (build_frequency_table s))) = some s
  rw [hcbrel, hbits, htree]
  exact hdec

end Fano
